import Mathlib

/-!
Verification of the geometric/numeric core of the Faster-R-CNN pipeline in
modeling_frcnn.py: box IoU utilities, NMS, the Matcher, label subsampling,
the Box2BoxTransform delta codec, the anchor generator and the final
per-image detection filtering.  Exact arithmetic (rationals where the code
is pure arithmetic, reals where it uses log, exp or sqrt) stands in for
floating point.
-/

/-- A box in (x0, y0, x1, y1) corner format with rational coordinates. -/
structure BoxQ where
  x0 : ℚ
  y0 : ℚ
  x1 : ℚ
  y1 : ℚ
deriving DecidableEq, Repr, Inhabited

namespace FrcnnQ

/-- Modelled from the spec: the Boxes container class (with its area method)
is not part of the sources; per the spec the IoU is the standard
intersection over union, so the area of an (x0, y0, x1, y1) box is
width times height. -/
def area (b : BoxQ) : ℚ := (b.x1 - b.x0) * (b.y1 - b.y0)

/-- One entry of pairwise_intersection: clamped overlap width times clamped
overlap height, following width_height.clamp_(min=0) and prod. -/
def pairwise_intersection (b1 b2 : BoxQ) : ℚ :=
  max 0 (min b1.x1 b2.x1 - max b1.x0 b2.x0) *
    max 0 (min b1.y1 b2.y1 - max b1.y0 b2.y0)

/-- One entry of pairwise_iou: torch.where(inter > 0, inter / (area1 + area2 - inter), 0). -/
def iouEntry (b1 b2 : BoxQ) : ℚ :=
  if 0 < pairwise_intersection b1 b2 then
    pairwise_intersection b1 b2 / (area b1 + area b2 - pairwise_intersection b1 b2)
  else 0

/-- pairwise_iou on two box lists, as an N x M nested list. -/
def pairwise_iou (boxes1 boxes2 : List BoxQ) : List (List ℚ) :=
  boxes1.map (fun a => boxes2.map (fun b => iouEntry a b))

/-- In-place clip of a box to the image rectangle, from _clip_box:
x coordinates clamped into the interval from 0 to w, y into 0 to h. -/
def clipBox (h w : ℚ) (b : BoxQ) : BoxQ :=
  ⟨min (max b.x0 0) w, min (max b.y0 0) h, min (max b.x1 0) w, min (max b.y1 0) h⟩

/-- Stable descending insertion by score: index i is placed after every
already-sorted index whose score is at least as large. -/
def insertDesc (scores : List ℚ) (l : List ℕ) (i : ℕ) : List ℕ :=
  match l with
  | [] => [i]
  | j :: rest =>
    if scores.getD j 0 < scores.getD i 0 then i :: j :: rest
    else j :: insertDesc scores rest i

/-- Sort a list of indices by strictly descending score, stable on ties
(earlier index first).  Models argsort(descending=True) with the stable
tie-break the spec documents. -/
def sortIndicesDesc (scores : List ℚ) (l : List ℕ) : List ℕ :=
  l.foldl (insertDesc scores) []

/-- Greedy NMS over box indices, from torchvision nms as used by the
repository loop path: process candidates in descending score order and keep
a candidate iff its IoU with every previously kept box is at most the
threshold. -/
def nmsQ (boxes : List BoxQ) (scores : List ℚ) (thr : ℚ) : List ℕ :=
  (sortIndicesDesc scores (List.range boxes.length)).foldl
    (fun kept i =>
      if kept.all (fun j => iouEntry (boxes.getD i default) (boxes.getD j default) ≤ thr)
      then kept ++ [i] else kept)
    []

/-- The positions whose group id equals g, in ascending order
(mask = (idxs == i).nonzero() of the loop path). -/
def groupIndices (idxs : List ℕ) (g : ℕ) : List ℕ :=
  (List.range idxs.length).filter (fun i => idxs.getD i 0 == g)

/-- Whether global index i survives NMS run inside its own group. -/
def keptInGroup (boxes : List BoxQ) (scores : List ℚ) (idxs : List ℕ) (thr : ℚ)
    (i : ℕ) : Bool :=
  let m := groupIndices idxs (idxs.getD i 0)
  let k := nmsQ (m.map (fun j => boxes.getD j default)) (m.map (fun j => scores.getD j 0)) thr
  (k.map (fun p => m.getD p 0)).contains i

/-- batched_nms: NMS independently per group id, then all kept indices
merged and sorted by descending score (the final argsort of the loop path,
taken stable on ties). -/
def batched_nms (boxes : List BoxQ) (scores : List ℚ) (idxs : List ℕ) (thr : ℚ) :
    List ℕ :=
  sortIndicesDesc scores
    ((List.range boxes.length).filter (keptInGroup boxes scores idxs thr))

/-- Row-major nonzero of the mask (scores > thresh): the (row, class) index
pairs whose score strictly exceeds the threshold. -/
def filterInds (scores : List (List ℚ)) (thresh : ℚ) : List (ℕ × ℕ) :=
  (List.range scores.length).flatMap (fun r =>
    (List.range (scores.getD r []).length).filterMap (fun k =>
      if thresh < (scores.getD r []).getD k 0 then some (r, k) else none))

/-- The boxes selected by the score filter of
fast_rcnn_inference_single_image, after in-place clipping: with a single
regression class the class index is ignored, otherwise boxes[filter_mask]. -/
def frcnnSelBoxes (boxes : List (List BoxQ)) (scores : List (List ℚ))
    (imageH imageW score_thresh : ℚ) : List BoxQ :=
  let clipped := boxes.map (fun row => row.map (clipBox imageH imageW))
  let finds := filterInds (scores.map (fun row => row.dropLast)) score_thresh
  if (boxes.headD []).length = 1 then
    finds.map (fun p => (clipped.getD p.1 []).getD 0 default)
  else
    finds.map (fun p => (clipped.getD p.1 []).getD p.2 default)

/-- The scores selected by the score filter (scores[filter_mask]). -/
def frcnnSelScores (scores : List (List ℚ)) (score_thresh : ℚ) : List ℚ :=
  (filterInds (scores.map (fun row => row.dropLast)) score_thresh).map
    (fun p => ((scores.map (fun row => row.dropLast)).getD p.1 []).getD p.2 0)

/-- The per-class NMS keep list of fast_rcnn_inference_single_image. -/
def frcnnKeep (boxes : List (List BoxQ)) (scores : List (List ℚ))
    (imageH imageW score_thresh nms_thresh : ℚ) : List ℕ :=
  batched_nms (frcnnSelBoxes boxes scores imageH imageW score_thresh)
    (frcnnSelScores scores score_thresh)
    ((filterInds (scores.map (fun row => row.dropLast)) score_thresh).map
      (fun p => p.2))
    nms_thresh

/-- fast_rcnn_inference_single_image.  Input: per-proposal per-class boxes
(R rows of C boxes each), per-proposal scores over num-classes-plus-one
columns with background last.  Returns kept boxes, scores and class ids,
plus the originating proposal indices. -/
def fast_rcnn_inference_single_image (boxes : List (List BoxQ))
    (scores : List (List ℚ)) (imageH imageW : ℚ) (score_thresh nms_thresh : ℚ)
    (topk_per_image : ℤ) :
    (List BoxQ × List ℚ × List ℕ) × List ℕ :=
  let finds := filterInds (scores.map (fun row => row.dropLast)) score_thresh
  let selBoxes := frcnnSelBoxes boxes scores imageH imageW score_thresh
  let selScores := frcnnSelScores scores score_thresh
  let keep := frcnnKeep boxes scores imageH imageW score_thresh nms_thresh
  let keep2 := if 0 ≤ topk_per_image then keep.take topk_per_image.toNat else keep
  ((keep2.map (fun i => selBoxes.getD i default),
    keep2.map (fun i => selScores.getD i 0),
    keep2.map (fun i => (finds.getD i (0, 0)).2)),
   keep2.map (fun i => (finds.getD i (0, 0)).1))

end FrcnnQ

/-- An extended rational: the Matcher constructor inserts minus and plus
infinity at the two ends of its threshold list. -/
inductive EQty where
  | neginf : EQty
  | fin : ℚ → EQty
  | posinf : EQty
deriving DecidableEq, Repr

/-- Lower bound comparison of an extended threshold against a value. -/
def EQty.leq : EQty → ℚ → Bool
  | .neginf, _ => true
  | .fin t, v => t ≤ v
  | .posinf, _ => false

/-- Strict upper bound comparison of a value against an extended threshold. -/
def EQty.gtq : EQty → ℚ → Bool
  | .neginf, _ => false
  | .fin t, v => v < t
  | .posinf, _ => true

namespace FrcnnQ

/-- The consecutive (low, high) threshold pairs after the constructor pads
the list with minus and plus infinity. -/
def extPairs (thresholds : List ℚ) : List (EQty × EQty) :=
  let e := EQty.neginf :: (thresholds.map EQty.fin ++ [EQty.posinf])
  e.zip e.tail

/-- The stratification loop of Matcher call: starting from the initial
fill value 1, each (label, low, high) band overwrites the label of every
value with low <= v < high. -/
def bandLabel (thresholds : List ℚ) (labels : List ℤ) (v : ℚ) : ℤ :=
  (labels.zip (extPairs thresholds)).foldl
    (fun acc b => if b.2.1.leq v && b.2.2.gtq v then b.1 else acc) 1

/-- Maximum of a nonempty list (0 on the empty list, never used there). -/
def listMax : List ℚ → ℚ
  | [] => 0
  | x :: xs => xs.foldl max x

/-- Index of the first occurrence of the maximum of column j over the rows. -/
def colArgmax (rows : List (List ℚ)) (j : ℕ) : ℕ :=
  (List.range rows.length).foldl
    (fun best i =>
      if (rows.getD best []).getD j 0 < (rows.getD i []).getD j 0 then i else best) 0

/-- Matcher call.  rows is the M x N quality matrix; n is the number of
predictions (the second tensor dimension, needed when the matrix is empty).
Returns (matches, match_labels). -/
def matcherCall (thresholds : List ℚ) (labels : List ℤ)
    (allow_low_quality_matches : Bool) (n : ℕ) (rows : List (List ℚ)) :
    List ℕ × List ℤ :=
  if rows.length * n = 0 then
    (List.replicate n 0, List.replicate n (labels.headD 0))
  else
    let matched := (List.range n).map (colArgmax rows)
    let base := (List.range n).map (fun j =>
      bandLabel thresholds labels (listMax (rows.map (fun r => r.getD j 0))))
    let match_labels :=
      if allow_low_quality_matches then
        (List.range n).map (fun j =>
          if rows.any (fun r => r.getD j 0 == listMax r) then 1
          else base.getD j 0)
      else base
    (matched, match_labels)

/-- The positions of labels that are neither ignore (-1) nor background,
from torch.nonzero((labels != -1) & (labels != bg_label)). -/
def positiveIdx (labels : List ℤ) (bg_label : ℤ) : List ℕ :=
  (List.range labels.length).filter
    (fun i => labels.getD i 0 != -1 && labels.getD i 0 != bg_label)

/-- The positions of background labels, from torch.nonzero(labels == bg_label). -/
def negativeIdx (labels : List ℤ) (bg_label : ℤ) : List ℕ :=
  (List.range labels.length).filter (fun i => labels.getD i 0 == bg_label)

/-- subsample_labels.  The two randperm draws are modelled by the two
permutations sigma1 and sigma2 handed in as arguments; the theorems
quantify over all permutations of the corresponding index ranges. -/
def subsample_labels (labels : List ℤ) (num_samples : ℕ) (positive_fraction : ℚ)
    (bg_label : ℤ) (sigma1 sigma2 : List ℕ) : List ℕ × List ℕ :=
  let positive := positiveIdx labels bg_label
  let negative := negativeIdx labels bg_label
  let num_pos := min positive.length (Int.toNat (Int.floor ((num_samples : ℚ) * positive_fraction)))
  let num_neg := min negative.length (num_samples - num_pos)
  let pos_idx := (sigma1.take num_pos).map (fun k => positive.getD k 0)
  let neg_idx := (sigma2.take num_neg).map (fun k => negative.getD k 0)
  (pos_idx, neg_idx)

end FrcnnQ

/-- A box in (x1, y1, x2, y2) corner format with real coordinates, for the
transforms that use log, exp and sqrt. -/
@[ext]
structure BoxR where
  x0 : ℝ
  y0 : ℝ
  x1 : ℝ
  y1 : ℝ

/-- A (dx, dy, dw, dh) regression delta. -/
structure DeltaR where
  dx : ℝ
  dy : ℝ
  dw : ℝ
  dh : ℝ

/-- The four per-coordinate weights of Box2BoxTransform. -/
structure B2BWeights where
  wx : ℝ
  wy : ℝ
  ww : ℝ
  wh : ℝ

namespace FrcnnR

/-- The default scale clamp of Box2BoxTransform. -/
noncomputable def default_scale_clamp : ℝ := Real.log (1000 / 16)

/-- The delta of one source and target box pair, from the columnwise
arithmetic of get_deltas. -/
noncomputable def getDeltasPair (w : B2BWeights) (src tgt : BoxR) : DeltaR :=
  let src_width := src.x1 - src.x0
  let src_height := src.y1 - src.y0
  let src_ctr_x := src.x0 + (1 / 2) * src_width
  let src_ctr_y := src.y0 + (1 / 2) * src_height
  let target_width := tgt.x1 - tgt.x0
  let target_height := tgt.y1 - tgt.y0
  let target_ctr_x := tgt.x0 + (1 / 2) * target_width
  let target_ctr_y := tgt.y0 + (1 / 2) * target_height
  ⟨w.wx * (target_ctr_x - src_ctr_x) / src_width,
   w.wy * (target_ctr_y - src_ctr_y) / src_height,
   w.ww * Real.log (target_width / src_width),
   w.wh * Real.log (target_height / src_height)⟩

/-- get_deltas: the deltas of all pairs; the source asserts that every
source width is strictly positive (heights are not checked) and raises
otherwise. -/
noncomputable def get_deltas (w : B2BWeights) (src_boxes target_boxes : List BoxR) :
    Except String (List DeltaR) :=
  haveI : Decidable (∀ b ∈ src_boxes, 0 < b.x1 - b.x0) := Classical.propDecidable _
  if ∀ b ∈ src_boxes, 0 < b.x1 - b.x0 then
    Except.ok (List.zipWith (getDeltasPair w) src_boxes target_boxes)
  else Except.error "Input boxes to Box2BoxTransform are not valid!"

/-- Application of one delta to one box: dw and dh are clamped from above
at scale_clamp before exponentiation. -/
noncomputable def applyDeltaOne (w : B2BWeights) (scale_clamp : ℝ) (d : DeltaR)
    (b : BoxR) : BoxR :=
  let width := b.x1 - b.x0
  let height := b.y1 - b.y0
  let ctr_x := b.x0 + (1 / 2) * width
  let ctr_y := b.y0 + (1 / 2) * height
  let dx := d.dx / w.wx
  let dy := d.dy / w.wy
  let dw := min (d.dw / w.ww) scale_clamp
  let dh := min (d.dh / w.wh) scale_clamp
  let pred_ctr_x := dx * width + ctr_x
  let pred_ctr_y := dy * height + ctr_y
  let pred_w := Real.exp dw * width
  let pred_h := Real.exp dh * height
  ⟨pred_ctr_x - (1 / 2) * pred_w, pred_ctr_y - (1 / 2) * pred_h,
   pred_ctr_x + (1 / 2) * pred_w, pred_ctr_y + (1 / 2) * pred_h⟩

/-- apply_deltas: row i of deltas holds the k class-specific deltas of box
i; each is transformed independently. -/
noncomputable def apply_deltas (w : B2BWeights) (scale_clamp : ℝ)
    (deltas : List (List DeltaR)) (boxes : List BoxR) : List (List BoxR) :=
  List.zipWith (fun ds b => ds.map (fun d => applyDeltaOne w scale_clamp d b))
    deltas boxes

/-- generate_cell_anchors: one zero-centered box per (size, aspect ratio)
combination, sizes outer, ratios inner. -/
noncomputable def generate_cell_anchors (sizes aspect_ratios : List ℝ) : List BoxR :=
  sizes.flatMap (fun size =>
    aspect_ratios.map (fun aspect_ratio =>
      let area := size ^ 2
      let w := Real.sqrt (area / aspect_ratio)
      let h := aspect_ratio * w
      ⟨-(w / 2), -(h / 2), w / 2, h / 2⟩))

/-- torch.arange over the reals: start, start + step, ... strictly below
stop; the element count is the ceiling of (stop - start) / step. -/
noncomputable def arange (start stop step : ℝ) : List ℝ :=
  (List.range (Int.toNat ⌈(stop - start) / step⌉)).map
    (fun i : Nat => start + (i : ℝ) * step)

/-- _create_grid_offsets: the meshgrid of the two arange calls, flattened
with the y shifts varying slowest; each grid point contributes the (x, y)
shift pair. -/
noncomputable def create_grid_offsets (gridH gridW : ℕ) (stride offset : ℝ) :
    List (ℝ × ℝ) :=
  (arange (offset * stride) (gridH * stride) stride).flatMap (fun y =>
    (arange (offset * stride) (gridW * stride) stride).map (fun x => (x, y)))

/-- grid_anchors for one level: every cell anchor translated by every grid
shift, shifts outer, cell anchors inner. -/
noncomputable def grid_anchors (gridH gridW : ℕ) (stride offset : ℝ)
    (cell_anchors : List BoxR) : List BoxR :=
  (create_grid_offsets gridH gridW stride offset).flatMap (fun s =>
    cell_anchors.map (fun a => ⟨a.x0 + s.1, a.y0 + s.2, a.x1 + s.1, a.y1 + s.2⟩))

/-- The logistic sigmoid. -/
noncomputable def sigmoid (x : ℝ) : ℝ := Real.exp x / (1 + Real.exp x)

/-- binary_cross_entropy_with_logits for one (logit, target) pair. -/
noncomputable def bceWithLogits (x y : ℝ) : ℝ :=
  -(y * Real.log (sigmoid x) + (1 - y) * Real.log (1 - sigmoid x))

/-- The smooth-L1 penalty of one residual with transition point beta. -/
noncomputable def smoothL1 (beta x : ℝ) : ℝ :=
  if |x| < beta then x ^ 2 / (2 * beta) else |x| - beta / 2

/-- Summed smooth-L1 loss of one predicted and one target delta row. -/
noncomputable def smoothL1SumRow (beta : ℝ) (pred gt : List ℝ) : ℝ :=
  (List.zipWith (fun p g => smoothL1 beta (p - g)) pred gt).sum

/-- Summed smooth-L1 loss over all rows (reduction sum). -/
noncomputable def smoothL1SumAll (beta : ℝ) (pred gt : List (List ℝ)) : ℝ :=
  (List.zipWith (smoothL1SumRow beta) pred gt).sum

/-- Translation of rpn_losses.  The objectness component is the summed
binary cross entropy over the anchors whose ground-truth label is not the
ignore value -1.  The source binds localization_loss to the freshly
constructed SmoothL1Loss module (with the default transition point 1,
ignoring smooth_l1_beta) and returns it without ever applying it to any
tensors, so the localization component of the returned pair is that loss
function itself. -/
noncomputable def rpn_losses (gt_objectness_logits : List ℤ)
    (gt_anchor_deltas : List (List ℝ)) (pred_objectness_logits : List ℝ)
    (pred_anchor_deltas : List (List ℝ)) (smooth_l1_beta : ℝ) :
    ℝ × (List (List ℝ) → List (List ℝ) → ℝ) :=
  let objectness_loss :=
    (List.zipWith
      (fun g p => if (0 : ℤ) ≤ g then bceWithLogits p (g : ℝ) else 0)
      gt_objectness_logits pred_objectness_logits).sum
  (objectness_loss, fun pred gt => smoothL1SumAll 1 pred gt)

/-- Modelled from the spec: the intended RPN localization loss of sections
4.5 and 9, which the source never computes: the summed smooth-L1 loss
between predicted and ground-truth anchor deltas of the positive anchors
(label 1) only, normalized by batch_size_per_image times num_images. -/
noncomputable def spec_rpn_loc_loss (gt_objectness_logits : List ℤ)
    (gt_anchor_deltas pred_anchor_deltas : List (List ℝ)) (beta : ℝ)
    (batch_size_per_image num_images : ℕ) : ℝ :=
  (List.zipWith
    (fun g pg => if g = 1 then smoothL1SumRow beta pg.1 pg.2 else 0)
    gt_objectness_logits (List.zip pred_anchor_deltas gt_anchor_deltas)).sum
  / ((batch_size_per_image : ℝ) * (num_images : ℝ))

end FrcnnR

/-! ## Theorems -/

namespace FrcnnQ

theorem pairwise_intersection_comm (b1 b2 : BoxQ) :
    pairwise_intersection b1 b2 = pairwise_intersection b2 b1 := by
  unfold pairwise_intersection
  rw [min_comm b1.x1, max_comm b1.x0, min_comm b1.y1, max_comm b1.y0]

theorem iouEntry_comm (b1 b2 : BoxQ) : iouEntry b1 b2 = iouEntry b2 b1 := by
  unfold iouEntry
  rw [pairwise_intersection_comm]
  ring_nf

theorem pairwise_intersection_nonneg (b1 b2 : BoxQ) :
    0 ≤ pairwise_intersection b1 b2 := by
  unfold pairwise_intersection
  positivity

/-- If the intersection is positive then it is bounded by each area. -/
theorem pairwise_intersection_le_area (b1 b2 : BoxQ)
    (h : 0 < pairwise_intersection b1 b2) :
    pairwise_intersection b1 b2 ≤ area b1 ∧ pairwise_intersection b1 b2 ≤ area b2 := by
  unfold pairwise_intersection at *
  set w := min b1.x1 b2.x1 - max b1.x0 b2.x0 with hw
  set v := min b1.y1 b2.y1 - max b1.y0 b2.y0 with hv
  have hwpos : 0 < max 0 w := by
    rcases lt_or_le 0 (max 0 w) with h1 | h1
    · exact h1
    · exfalso
      have : max 0 w = 0 := le_antisymm h1 (le_max_left _ _)
      rw [this, zero_mul] at h
      exact lt_irrefl _ h
  have hvpos : 0 < max 0 v := by
    rcases lt_or_le 0 (max 0 v) with h1 | h1
    · exact h1
    · exfalso
      have : max 0 v = 0 := le_antisymm h1 (le_max_left _ _)
      rw [this, mul_zero] at h
      exact lt_irrefl _ h
  have hw2 : max 0 w = w := by
    rcases max_choice 0 w with h1 | h1
    · rw [h1] at hwpos; exact absurd hwpos (lt_irrefl 0)
    · exact h1
  have hv2 : max 0 v = v := by
    rcases max_choice 0 v with h1 | h1
    · rw [h1] at hvpos; exact absurd hvpos (lt_irrefl 0)
    · exact h1
  rw [hw2] at hwpos
  rw [hv2] at hvpos
  have hwb1 : w ≤ b1.x1 - b1.x0 := by
    rw [hw]
    have h1 : min b1.x1 b2.x1 ≤ b1.x1 := min_le_left _ _
    have h2 : b1.x0 ≤ max b1.x0 b2.x0 := le_max_left _ _
    linarith
  have hwb2 : w ≤ b2.x1 - b2.x0 := by
    rw [hw]
    have h1 : min b1.x1 b2.x1 ≤ b2.x1 := min_le_right _ _
    have h2 : b2.x0 ≤ max b1.x0 b2.x0 := le_max_right _ _
    linarith
  have hvb1 : v ≤ b1.y1 - b1.y0 := by
    rw [hv]
    have h1 : min b1.y1 b2.y1 ≤ b1.y1 := min_le_left _ _
    have h2 : b1.y0 ≤ max b1.y0 b2.y0 := le_max_left _ _
    linarith
  have hvb2 : v ≤ b2.y1 - b2.y0 := by
    rw [hv]
    have h1 : min b1.y1 b2.y1 ≤ b2.y1 := min_le_right _ _
    have h2 : b2.y0 ≤ max b1.y0 b2.y0 := le_max_right _ _
    linarith
  constructor
  · rw [hw2, hv2]
    unfold area
    exact mul_le_mul hwb1 hvb1 (le_of_lt hvpos) (by linarith)
  · rw [hw2, hv2]
    unfold area
    exact mul_le_mul hwb2 hvb2 (le_of_lt hvpos) (by linarith)

/-- Every IoU entry lies in the unit interval, for arbitrary boxes. -/
theorem iouEntry_mem_unit (b1 b2 : BoxQ) : 0 ≤ iouEntry b1 b2 ∧ iouEntry b1 b2 ≤ 1 := by
  unfold iouEntry
  by_cases h : 0 < pairwise_intersection b1 b2
  · rw [if_pos h]
    obtain ⟨h1, h2⟩ := pairwise_intersection_le_area b1 b2 h
    have hden : 0 < area b1 + area b2 - pairwise_intersection b1 b2 := by linarith
    constructor
    · positivity
    · rw [div_le_one hden]
      linarith
  · rw [if_neg h]
    norm_num

/-- Self-IoU is 1 for a box of strictly positive width and height. -/
theorem iouEntry_self (b : BoxQ) (hw : 0 < b.x1 - b.x0) (hv : 0 < b.y1 - b.y0) :
    iouEntry b b = 1 := by
  have hinter : pairwise_intersection b b = area b := by
    unfold pairwise_intersection area
    rw [min_self, max_self, min_self, max_self]
    rw [max_eq_right (le_of_lt hw), max_eq_right (le_of_lt hv)]
  have hpos : 0 < area b := by
    unfold area; positivity
  unfold iouEntry
  rw [hinter, if_pos hpos]
  have : area b + area b - area b = area b := by ring
  rw [this, div_self (ne_of_gt hpos)]

/-- IoU is zero whenever the intersection is zero (no division by zero). -/
theorem iouEntry_of_inter_zero (b1 b2 : BoxQ) (h : pairwise_intersection b1 b2 = 0) :
    iouEntry b1 b2 = 0 := by
  unfold iouEntry
  rw [h]
  norm_num

theorem pairwise_iou_get (A B : List BoxQ) (i j : ℕ) (hi : i < A.length)
    (hj : j < B.length) :
    ((pairwise_iou A B).getD i []).getD j 0 = iouEntry (A.getD i default) (B.getD j default) := by
  unfold pairwise_iou
  simp only [List.getD_eq_getElem?_getD, List.getElem?_map]
  rw [List.getElem?_eq_getElem hi]
  simp only [Option.map_some', Option.getD_some, List.getElem?_map]
  rw [List.getElem?_eq_getElem hj]
  simp

/-- C6 (amended): pairwise_iou of A against B agrees entrywise with the
transpose of pairwise_iou of B against A; every entry lies in the unit
interval; a box of strictly positive width and height has self-IoU exactly
1; and a pair with zero intersection has IoU defined to be 0. -/
theorem C6_pairwise_iou_properties (A B : List BoxQ) :
    (∀ i j, i < A.length → j < B.length →
      ((pairwise_iou A B).getD i []).getD j 0 = ((pairwise_iou B A).getD j []).getD i 0)
    ∧ (∀ row ∈ pairwise_iou A B, ∀ v ∈ row, 0 ≤ v ∧ v ≤ 1)
    ∧ (∀ b : BoxQ, 0 < b.x1 - b.x0 → 0 < b.y1 - b.y0 → pairwise_iou [b] [b] = [[1]])
    ∧ (∀ b1 b2 : BoxQ, pairwise_intersection b1 b2 = 0 → iouEntry b1 b2 = 0) := by
  refine ⟨?_, ?_, ?_, ?_⟩
  · intro i j hi hj
    rw [pairwise_iou_get A B i j hi hj, pairwise_iou_get B A j i hj hi]
    exact iouEntry_comm _ _
  · intro row hrow v hv
    unfold pairwise_iou at hrow
    rw [List.mem_map] at hrow
    obtain ⟨a, _, ha⟩ := hrow
    rw [← ha, List.mem_map] at hv
    obtain ⟨b, _, hb⟩ := hv
    rw [← hb]
    exact iouEntry_mem_unit a b
  · intro b hw hv
    unfold pairwise_iou
    simp [iouEntry_self b hw hv]
  · exact iouEntry_of_inter_zero

/-- C6 counterexample: a degenerate (zero width and height) box has
self-IoU 0, not 1, so the claim is false for arbitrary boxes. -/
theorem C6_counterexample :
    pairwise_iou [(⟨0, 0, 0, 0⟩ : BoxQ)] [(⟨0, 0, 0, 0⟩ : BoxQ)] = [[0]]
    ∧ iouEntry (⟨0, 0, 0, 0⟩ : BoxQ) (⟨0, 0, 0, 0⟩ : BoxQ) ≠ 1 := by
  constructor
  · simp [pairwise_iou, iouEntry, pairwise_intersection]
  · simp [iouEntry, pairwise_intersection]

/-- C6 witness: the amended statement applied at a concrete positive box. -/
theorem C6_witness :
    pairwise_iou [(⟨0, 0, 2, 3⟩ : BoxQ)] [(⟨0, 0, 2, 3⟩ : BoxQ)] = [[1]] :=
  (C6_pairwise_iou_properties [] []).2.2.1 ⟨0, 0, 2, 3⟩ (by norm_num) (by norm_num)

theorem getD_map_range {α : Type} (f : ℕ → α) (n j : ℕ) (hj : j < n) (d : α) :
    ((List.range n).map f).getD j d = f j := by
  rw [List.getD_eq_getElem?_getD, List.getElem?_map, List.getElem?_range hj]
  simp

theorem bandFold_no_match (v : ℚ) (bands : List (ℤ × EQty × EQty)) (init : ℤ)
    (h : ∀ b ∈ bands, ¬(b.2.1.leq v && b.2.2.gtq v) = true) :
    bands.foldl (fun acc b => if b.2.1.leq v && b.2.2.gtq v then b.1 else acc) init
      = init := by
  induction bands generalizing init with
  | nil => rfl
  | cons b rest ih =>
    have hb := h b (List.mem_cons_self b rest)
    simp only [List.foldl_cons, if_neg hb]
    exact ih init (fun x hx => h x (List.mem_cons_of_mem b hx))

theorem bandFold_mem (v : ℚ) (bands : List (ℤ × EQty × EQty)) (init : ℤ)
    (h : ∃ b ∈ bands, (b.2.1.leq v && b.2.2.gtq v) = true) :
    bands.foldl (fun acc b => if b.2.1.leq v && b.2.2.gtq v then b.1 else acc) init
      ∈ bands.map Prod.fst := by
  induction bands generalizing init with
  | nil => obtain ⟨b, hb, _⟩ := h; exact absurd hb (List.not_mem_nil b)
  | cons b rest ih =>
    simp only [List.foldl_cons]
    by_cases hrest : ∃ x ∈ rest, (x.2.1.leq v && x.2.2.gtq v) = true
    · exact List.mem_cons_of_mem _ (ih _ hrest)
    · push_neg at hrest
      obtain ⟨x, hx, hcond⟩ := h
      rcases List.mem_cons.mp hx with hxb | hxr
      · subst hxb
        rw [if_pos hcond, bandFold_no_match v rest x.1 (by simpa using hrest)]
        exact List.mem_cons_self _ _
      · exact absurd hcond (by simpa using hrest x hxr)

/-- Coverage: walking a chain of extended thresholds that ends in plus
infinity from a lower bound satisfied by v, some consecutive pair brackets
v. -/
theorem covers_aux (v : ℚ) :
    ∀ (l : List EQty) (a : EQty), a.leq v = true → l.getLast? = some EQty.posinf →
      ∃ p ∈ (a :: l).zip l, (p.1.leq v && p.2.gtq v) = true := by
  intro l
  induction l with
  | nil => intro a _ hlast; exact absurd hlast (by simp)
  | cons b rest ih =>
    intro a ha hlast
    by_cases hb : b.gtq v = true
    · exact ⟨(a, b), by simp, by simp [ha, hb]⟩
    · have hble : b.leq v = true := by
        cases b with
        | neginf => rfl
        | fin t =>
          simp only [EQty.gtq, decide_eq_true_eq] at hb
          simp only [EQty.leq, decide_eq_true_eq]
          exact le_of_not_lt hb
        | posinf => exact absurd rfl hb
      cases rest with
      | nil =>
        have : b = EQty.posinf := by simpa using hlast
        subst this
        exact absurd rfl hb
      | cons c rest2 =>
        have hlast2 : (c :: rest2).getLast? = some EQty.posinf := by
          rwa [List.getLast?_cons_cons] at hlast
        obtain ⟨p, hp, hcond⟩ := ih b hble hlast2
        exact ⟨p, List.mem_cons_of_mem _ hp, hcond⟩

/-- Every value is bracketed by some pair of consecutive padded thresholds. -/
theorem extPairs_covers (thresholds : List ℚ) (v : ℚ) :
    ∃ p ∈ extPairs thresholds, (p.1.leq v && p.2.gtq v) = true := by
  unfold extPairs
  have hlast : (thresholds.map EQty.fin ++ [EQty.posinf]).getLast? = some EQty.posinf := by
    simp
  simpa using covers_aux v (thresholds.map EQty.fin ++ [EQty.posinf]) EQty.neginf rfl hlast

theorem extPairs_length (thresholds : List ℚ) :
    (extPairs thresholds).length = thresholds.length + 1 := by
  unfold extPairs
  simp

/-- The stratification label always comes from the configured label list
when the lengths agree as the constructor asserts. -/
theorem bandLabel_mem (thresholds : List ℚ) (labels : List ℤ) (v : ℚ)
    (hlen : labels.length = thresholds.length + 1) :
    bandLabel thresholds labels v ∈ labels := by
  unfold bandLabel
  have hexists : ∃ b ∈ labels.zip (extPairs thresholds),
      (b.2.1.leq v && b.2.2.gtq v) = true := by
    obtain ⟨p, hp, hcond⟩ := extPairs_covers thresholds v
    obtain ⟨i, hi, hpi⟩ := List.getElem_of_mem hp
    have hext := extPairs_length thresholds
    have hiz : i < (labels.zip (extPairs thresholds)).length := by
      rw [List.length_zip, extPairs_length, hlen, min_self]
      omega
    refine ⟨(labels.zip (extPairs thresholds))[i], List.getElem_mem hiz, ?_⟩
    rw [List.getElem_zip, hpi]
    exact hcond
  have hmem := bandFold_mem v (labels.zip (extPairs thresholds)) 1 hexists
  have hsub : (labels.zip (extPairs thresholds)).map Prod.fst = labels := by
    apply List.map_fst_zip
    rw [extPairs_length, ← hlen]
  rwa [hsub] at hmem

theorem foldl_max_mem (xs : List ℚ) : ∀ x : ℚ, xs.foldl max x ∈ x :: xs := by
  induction xs with
  | nil => intro x; simp
  | cons y ys ih =>
    intro x
    rw [List.foldl_cons]
    have h := ih (max x y)
    rcases List.mem_cons.mp h with h1 | h1
    · rw [h1]
      rcases max_choice x y with h2 | h2 <;> rw [h2] <;> simp
    · simp [h1]

theorem listMax_mem (l : List ℚ) (h : l ≠ []) : listMax l ∈ l := by
  cases l with
  | nil => exact absurd rfl h
  | cons x xs => exact foldl_max_mem xs x

/-- C3: with at least one ground-truth row and one prediction, a
non-negative quality matrix gives every prediction exactly one label from
the configured label list, and with the low-quality rescue enabled every
ground-truth row has a non-empty set of tied argmax predictions, all of
which are labeled 1. -/
theorem C3_matcher_invariants (thresholds : List ℚ) (labels : List ℤ)
    (allow : Bool) (n : ℕ) (rows : List (List ℚ))
    (hM : rows ≠ []) (hn : 0 < n)
    (hlen : labels.length = thresholds.length + 1)
    (h1 : allow = true → (1 : ℤ) ∈ labels)
    (hrows : ∀ r ∈ rows, r.length = n)
    (hnonneg : ∀ r ∈ rows, ∀ v ∈ r, 0 ≤ v) :
    ((matcherCall thresholds labels allow n rows).2.length = n
     ∧ (∀ l ∈ (matcherCall thresholds labels allow n rows).2, l ∈ labels))
    ∧ (allow = true →
        (∀ row ∈ rows, ∃ j, j < n ∧ row.getD j 0 = listMax row)
        ∧ (∀ j, j < n → (∃ row ∈ rows, row.getD j 0 = listMax row) →
            (matcherCall thresholds labels allow n rows).2.getD j 0 = 1)) := by
  have hne : ¬(rows.length * n = 0) := by
    simp only [Nat.mul_eq_zero, not_or]
    refine ⟨fun h => hM (List.length_eq_zero.mp h), ?_⟩
    omega
  constructor
  · constructor
    · unfold matcherCall
      rw [if_neg hne]
      cases allow <;> simp
    · intro l hl
      unfold matcherCall at hl
      rw [if_neg hne] at hl
      simp only at hl
      cases hallow : allow with
      | false =>
        rw [hallow] at hl
        simp only [if_neg (Bool.false_ne_true)] at hl
        rw [List.mem_map] at hl
        obtain ⟨j, hj, hfl⟩ := hl
        rw [← hfl]
        exact bandLabel_mem thresholds labels _ hlen
      | true =>
        rw [hallow] at hl
        simp only [eq_self_iff_true, if_true] at hl
        rw [List.mem_map] at hl
        obtain ⟨j, hj, hfl⟩ := hl
        rw [List.mem_range] at hj
        rw [← hfl]
        by_cases hany : rows.any (fun r => r.getD j 0 == listMax r) = true
        · rw [if_pos hany]
          exact h1 hallow
        · rw [if_neg hany, getD_map_range _ n j hj]
          exact bandLabel_mem thresholds labels _ hlen
  · intro hallow
    constructor
    · intro row hrow
      have hrne : row ≠ [] := by
        intro hcontra
        have := hrows row hrow
        rw [hcontra] at this
        simp at this
        omega
      obtain ⟨j, hj, hji⟩ := List.getElem_of_mem (listMax_mem row hrne)
      refine ⟨j, ?_, ?_⟩
      · rw [← hrows row hrow]; exact hj
      · rw [List.getD_eq_getElem row 0 hj]
        exact hji
    · intro j hj htie
      unfold matcherCall
      rw [if_neg hne]
      simp only [hallow, eq_self_iff_true, if_true]
      rw [getD_map_range _ n j hj]
      have hany : rows.any (fun r => r.getD j 0 == listMax r) = true := by
        rw [List.any_eq_true]
        obtain ⟨row, hrow, heq⟩ := htie
        exact ⟨row, hrow, by simpa using heq⟩
      rw [if_pos hany]

/-- C3 witness: a concrete 1 x 2 quality matrix with rescue enabled. -/
theorem C3_witness :
    ((matcherCall [3/10, 1/2] [0, -1, 1] true 2 [[1/2, 1/4]]).2.length = 2
     ∧ (∀ l ∈ (matcherCall [3/10, 1/2] [0, -1, 1] true 2 [[1/2, 1/4]]).2,
          l ∈ [(0 : ℤ), -1, 1]))
    ∧ (true = true →
        (∀ row ∈ [[(1 : ℚ)/2, 1/4]], ∃ j, j < 2 ∧ row.getD j 0 = listMax row)
        ∧ (∀ j, j < 2 →
            (∃ row ∈ [[(1 : ℚ)/2, 1/4]], row.getD j 0 = listMax row) →
            (matcherCall [3/10, 1/2] [0, -1, 1] true 2 [[1/2, 1/4]]).2.getD j 0 = 1)) :=
  C3_matcher_invariants [3/10, 1/2] [0, -1, 1] true 2 [[1/2, 1/4]]
    (by simp) (by norm_num) (by simp) (fun _ => by simp)
    (by intro r hr; simp at hr; rw [hr]; rfl)
    (by intro r hr v hv; simp at hr; rw [hr] at hv; simp at hv
        rcases hv with h | h <;> rw [h] <;> norm_num)

/-- C4: with zero ground-truth rows the Matcher returns normally: every
prediction gets match index 0 and the label of the lowest band, which is
the first configured label. -/
theorem C4_matcher_empty (thresholds : List ℚ) (labels : List ℤ) (allow : Bool)
    (n : ℕ) (hlabels : labels ≠ []) :
    matcherCall thresholds labels allow n [] =
      (List.replicate n 0, List.replicate n (labels.headD 0)) := by
  unfold matcherCall
  simp

/-- C4 witness: the empty-matrix branch at a concrete configuration. -/
theorem C4_witness :
    matcherCall [3/10, 1/2] [0, -1, 1] true 2 [] = ([0, 0], [0, 0]) := by
  rw [C4_matcher_empty [3/10, 1/2] [0, -1, 1] true 2 (by simp)]
  rfl

theorem mem_positiveIdx (labels : List ℤ) (bg_label : ℤ) (i : ℕ) :
    i ∈ positiveIdx labels bg_label ↔
      i < labels.length ∧ labels.getD i 0 ≠ -1 ∧ labels.getD i 0 ≠ bg_label := by
  unfold positiveIdx
  simp [List.mem_filter, List.mem_range]

theorem mem_negativeIdx (labels : List ℤ) (bg_label : ℤ) (i : ℕ) :
    i ∈ negativeIdx labels bg_label ↔
      i < labels.length ∧ labels.getD i 0 = bg_label := by
  unfold negativeIdx
  simp [List.mem_filter, List.mem_range]

/-- C9: the two index sets returned by subsample_labels are disjoint, the
positive indices point at labels that are neither ignore nor background,
the negative indices point at background labels, exactly
min(positive count, floor(positive_fraction times num_samples)) positives
are returned, and at most num_samples indices are returned in total. -/
theorem C9_subsample_labels (labels : List ℤ) (num_samples : ℕ)
    (positive_fraction : ℚ) (bg_label : ℤ) (sigma1 sigma2 : List ℕ)
    (hpf0 : 0 ≤ positive_fraction) (hpf1 : positive_fraction ≤ 1)
    (hs1 : sigma1.Perm (List.range (positiveIdx labels bg_label).length))
    (hs2 : sigma2.Perm (List.range (negativeIdx labels bg_label).length)) :
    (∀ i ∈ (subsample_labels labels num_samples positive_fraction bg_label sigma1 sigma2).1,
        labels.getD i 0 ≠ -1 ∧ labels.getD i 0 ≠ bg_label)
    ∧ (∀ i ∈ (subsample_labels labels num_samples positive_fraction bg_label sigma1 sigma2).2,
        labels.getD i 0 = bg_label)
    ∧ (∀ i, ¬(i ∈ (subsample_labels labels num_samples positive_fraction bg_label sigma1 sigma2).1
        ∧ i ∈ (subsample_labels labels num_samples positive_fraction bg_label sigma1 sigma2).2))
    ∧ (subsample_labels labels num_samples positive_fraction bg_label sigma1 sigma2).1.length
        = min (positiveIdx labels bg_label).length
            (Int.toNat (Int.floor ((num_samples : ℚ) * positive_fraction)))
    ∧ (subsample_labels labels num_samples positive_fraction bg_label sigma1 sigma2).1.length
        + (subsample_labels labels num_samples positive_fraction bg_label sigma1 sigma2).2.length
        ≤ num_samples := by
  set positive := positiveIdx labels bg_label with hposdef
  set negative := negativeIdx labels bg_label with hnegdef
  set num_pos := min positive.length
    (Int.toNat (Int.floor ((num_samples : ℚ) * positive_fraction))) with hnp
  set num_neg := min negative.length (num_samples - num_pos) with hnn
  have hres : subsample_labels labels num_samples positive_fraction bg_label sigma1 sigma2
      = ((sigma1.take num_pos).map (fun k => positive.getD k 0),
         (sigma2.take num_neg).map (fun k => negative.getD k 0)) := rfl
  have hposmem : ∀ i ∈ (subsample_labels labels num_samples positive_fraction bg_label
      sigma1 sigma2).1, labels.getD i 0 ≠ -1 ∧ labels.getD i 0 ≠ bg_label := by
    intro i hi
    rw [hres] at hi
    simp only [List.mem_map] at hi
    obtain ⟨k, hk, hki⟩ := hi
    have hk2 : k ∈ sigma1 := List.mem_of_mem_take hk
    have hk3 : k < positive.length := by
      have := (hs1.mem_iff).mp hk2
      rwa [List.mem_range] at this
    have hmem : positive.getD k 0 ∈ positive := by
      rw [List.getD_eq_getElem positive 0 hk3]
      exact List.getElem_mem hk3
    rw [hki] at hmem
    exact ((mem_positiveIdx labels bg_label i).mp hmem).2
  have hnegmem : ∀ i ∈ (subsample_labels labels num_samples positive_fraction bg_label
      sigma1 sigma2).2, labels.getD i 0 = bg_label := by
    intro i hi
    rw [hres] at hi
    simp only [List.mem_map] at hi
    obtain ⟨k, hk, hki⟩ := hi
    have hk2 : k ∈ sigma2 := List.mem_of_mem_take hk
    have hk3 : k < negative.length := by
      have := (hs2.mem_iff).mp hk2
      rwa [List.mem_range] at this
    have hmem : negative.getD k 0 ∈ negative := by
      rw [List.getD_eq_getElem negative 0 hk3]
      exact List.getElem_mem hk3
    rw [hki] at hmem
    exact ((mem_negativeIdx labels bg_label i).mp hmem).2
  have hnpns : num_pos ≤ num_samples := by
    have h1 : Int.floor ((num_samples : ℚ) * positive_fraction) ≤ (num_samples : ℤ) := by
      have : (num_samples : ℚ) * positive_fraction ≤ (num_samples : ℚ) := by
        calc (num_samples : ℚ) * positive_fraction ≤ (num_samples : ℚ) * 1 := by
              apply mul_le_mul_of_nonneg_left hpf1
              positivity
          _ = (num_samples : ℚ) := by ring
      calc Int.floor ((num_samples : ℚ) * positive_fraction)
            ≤ Int.floor ((num_samples : ℚ)) := Int.floor_le_floor this
        _ = (num_samples : ℤ) := Int.floor_natCast num_samples
    have h2 : Int.toNat (Int.floor ((num_samples : ℚ) * positive_fraction))
        ≤ num_samples := Int.toNat_le.mpr h1
    rw [hnp]
    omega
  refine ⟨hposmem, hnegmem, ?_, ?_, ?_⟩
  · intro i ⟨h1, h2⟩
    exact (hposmem i h1).2 (hnegmem i h2)
  · rw [hres]
    simp only [List.length_map, List.length_take]
    have hlen1 : sigma1.length = positive.length := by
      rw [hs1.length_eq, List.length_range]
    rw [hlen1, hnp]
    omega
  · rw [hres]
    simp only [List.length_map, List.length_take]
    have hlen1 : sigma1.length = positive.length := by
      rw [hs1.length_eq, List.length_range]
    have hlen2 : sigma2.length = negative.length := by
      rw [hs2.length_eq, List.length_range]
    rw [hlen1, hlen2]
    omega

/-- C9 witness: a concrete call with four labels and explicit permutations. -/
theorem C9_witness :
    (subsample_labels [5, -1, 0, 7] 3 (1/2) 0 [1, 0] [0]).1.length
      = min (positiveIdx [5, -1, 0, 7] 0).length
          (Int.toNat (Int.floor ((3 : ℚ) * (1/2)))) :=
  (C9_subsample_labels [5, -1, 0, 7] 3 (1/2) 0 [1, 0] [0]
    (by norm_num) (by norm_num) (by decide) (by decide)).2.2.2.1

theorem mem_insertDesc (scores : List ℚ) (i : ℕ) :
    ∀ (l : List ℕ) (x : ℕ), x ∈ insertDesc scores l i ↔ x ∈ l ∨ x = i := by
  intro l
  induction l with
  | nil => intro x; simp [insertDesc]
  | cons j rest ih =>
    intro x
    unfold insertDesc
    by_cases hc : scores.getD j 0 < scores.getD i 0
    · rw [if_pos hc]
      simp only [List.mem_cons]
      tauto
    · rw [if_neg hc]
      simp only [List.mem_cons, ih]
      tauto

theorem insertDesc_pairwise (scores : List ℚ) (i : ℕ) :
    ∀ (l : List ℕ),
      List.Pairwise (fun a b => scores.getD b 0 ≤ scores.getD a 0) l →
      List.Pairwise (fun a b => scores.getD b 0 ≤ scores.getD a 0)
        (insertDesc scores l i) := by
  intro l
  induction l with
  | nil => intro _; simp [insertDesc]
  | cons j rest ih =>
    intro hp
    rw [List.pairwise_cons] at hp
    obtain ⟨hj, hrest⟩ := hp
    unfold insertDesc
    by_cases hc : scores.getD j 0 < scores.getD i 0
    · rw [if_pos hc]
      rw [List.pairwise_cons]
      constructor
      · intro y hy
        rcases List.mem_cons.mp hy with h1 | h1
        · rw [h1]; exact le_of_lt hc
        · exact le_trans (hj y h1) (le_of_lt hc)
      · rw [List.pairwise_cons]
        exact ⟨hj, hrest⟩
    · rw [if_neg hc]
      rw [List.pairwise_cons]
      constructor
      · intro y hy
        rcases (mem_insertDesc scores i rest y).mp hy with h1 | h1
        · exact hj y h1
        · rw [h1]; exact le_of_not_lt hc
      · exact ih hrest

theorem foldl_insertDesc_pairwise (scores : List ℚ) :
    ∀ (l acc : List ℕ),
      List.Pairwise (fun a b => scores.getD b 0 ≤ scores.getD a 0) acc →
      List.Pairwise (fun a b => scores.getD b 0 ≤ scores.getD a 0)
        (l.foldl (insertDesc scores) acc) := by
  intro l
  induction l with
  | nil => intro acc h; exact h
  | cons x xs ih =>
    intro acc h
    rw [List.foldl_cons]
    exact ih _ (insertDesc_pairwise scores x acc h)

/-- The output of sortIndicesDesc is sorted by weakly descending score. -/
theorem sortIndicesDesc_pairwise (scores : List ℚ) (l : List ℕ) :
    List.Pairwise (fun a b => scores.getD b 0 ≤ scores.getD a 0)
      (sortIndicesDesc scores l) :=
  foldl_insertDesc_pairwise scores l [] List.Pairwise.nil

/-- The keep list returned by batched_nms is sorted by descending score. -/
theorem batched_nms_pairwise (boxes : List BoxQ) (scores : List ℚ)
    (idxs : List ℕ) (thr : ℚ) :
    List.Pairwise (fun a b => scores.getD b 0 ≤ scores.getD a 0)
      (batched_nms boxes scores idxs thr) :=
  sortIndicesDesc_pairwise scores _

theorem mem_filterInds (m : List (List ℚ)) (t : ℚ) (r k : ℕ) :
    (r, k) ∈ filterInds m t ↔
      r < m.length ∧ k < (m.getD r []).length ∧ t < (m.getD r []).getD k 0 := by
  constructor
  · intro h
    simp only [filterInds, List.mem_flatMap, List.mem_range] at h
    obtain ⟨a, ha, hmem⟩ := h
    simp only [List.mem_filterMap, List.mem_range] at hmem
    obtain ⟨b, hb, heq⟩ := hmem
    by_cases hc : t < (m.getD a []).getD b 0
    · rw [if_pos hc] at heq
      have hab : a = r ∧ b = k := by
        have := Option.some.inj heq
        exact ⟨congrArg Prod.fst this, congrArg Prod.snd this⟩
      obtain ⟨ha2, hb2⟩ := hab
      subst ha2; subst hb2
      exact ⟨ha, hb, hc⟩
    · rw [if_neg hc] at heq
      exact absurd heq (by simp)
  · intro ⟨h1, h2, h3⟩
    simp only [filterInds, List.mem_flatMap, List.mem_range]
    refine ⟨r, h1, ?_⟩
    simp only [List.mem_filterMap, List.mem_range]
    exact ⟨k, h2, by rw [if_pos h3]⟩

theorem getD_map_dropLast (scores : List (List ℚ)) (r : ℕ) (hr : r < scores.length) :
    (scores.map (fun row => row.dropLast)).getD r [] = (scores.getD r []).dropLast := by
  rw [List.getD_eq_getElem?_getD, List.getElem?_map, List.getElem?_eq_getElem hr]
  rw [List.getD_eq_getElem?_getD, List.getElem?_eq_getElem hr]
  simp

/-- C7: fast_rcnn_inference_single_image drops the background column and
keeps exactly the (proposal, class) pairs with score strictly above the
threshold; the per-class NMS keep list is sorted by descending score, and
the final detections are its topk_per_image prefix when topk_per_image is
non-negative and the whole list otherwise. -/
theorem C7_fast_rcnn_inference (boxes : List (List BoxQ)) (scores : List (List ℚ))
    (imageH imageW score_thresh nms_thresh : ℚ) (topk_per_image : ℤ) :
    (∀ r k : ℕ,
      ((r, k) ∈ filterInds (scores.map (fun row => row.dropLast)) score_thresh)
        ↔ (r < scores.length ∧ k + 1 < (scores.getD r []).length
            ∧ score_thresh < (scores.getD r []).getD k 0))
    ∧ List.Pairwise
        (fun i j => (frcnnSelScores scores score_thresh).getD j 0
          ≤ (frcnnSelScores scores score_thresh).getD i 0)
        (frcnnKeep boxes scores imageH imageW score_thresh nms_thresh)
    ∧ (fast_rcnn_inference_single_image boxes scores imageH imageW score_thresh
          nms_thresh topk_per_image).1.2.1
        = (if 0 ≤ topk_per_image then
            (frcnnKeep boxes scores imageH imageW score_thresh nms_thresh).take
              topk_per_image.toNat
          else frcnnKeep boxes scores imageH imageW score_thresh nms_thresh).map
            (fun i => (frcnnSelScores scores score_thresh).getD i 0) := by
  refine ⟨?_, ?_, ?_⟩
  · intro r k
    rw [mem_filterInds]
    constructor
    · intro ⟨h1, h2, h3⟩
      rw [List.length_map] at h1
      rw [getD_map_dropLast scores r h1] at h2 h3
      rw [List.length_dropLast] at h2
      have h2b : k + 1 < (scores.getD r []).length := by omega
      have hkd : k < (scores.getD r []).dropLast.length := by
        rw [List.length_dropLast]; omega
      rw [List.getD_eq_getElem _ 0 hkd, List.getElem_dropLast] at h3
      rw [List.getD_eq_getElem _ 0 (by omega : k < (scores.getD r []).length)]
      exact ⟨h1, h2b, h3⟩
    · intro ⟨h1, h2, h3⟩
      refine ⟨by rw [List.length_map]; exact h1, ?_, ?_⟩
      · rw [getD_map_dropLast scores r h1, List.length_dropLast]
        omega
      · rw [getD_map_dropLast scores r h1]
        have hkd : k < (scores.getD r []).dropLast.length := by
          rw [List.length_dropLast]; omega
        rw [List.getD_eq_getElem _ 0 hkd, List.getElem_dropLast]
        rw [List.getD_eq_getElem _ 0 (by omega : k < (scores.getD r []).length)] at h3
        exact h3
  · exact batched_nms_pairwise _ _ _ _
  · rfl

end FrcnnQ


namespace FrcnnR

theorem zipWith_mem {α β γ : Type} (f : α → β → γ) :
    ∀ (l1 : List α) (l2 : List β) (c : γ), c ∈ List.zipWith f l1 l2 →
      ∃ a b, a ∈ l1 ∧ b ∈ l2 ∧ c = f a b := by
  intro l1
  induction l1 with
  | nil => intro l2 c h; simp at h
  | cons x xs ih =>
    intro l2 c h
    cases l2 with
    | nil => simp at h
    | cons y ys =>
      rw [List.zipWith_cons_cons] at h
      rcases List.mem_cons.mp h with h1 | h1
      · exact ⟨x, y, by simp, by simp, h1⟩
      · obtain ⟨a, b, ha, hb, hc⟩ := ih ys c h1
        exact ⟨a, b, List.mem_cons_of_mem _ ha, List.mem_cons_of_mem _ hb, hc⟩

/-- C5 (amended): get_deltas fails exactly when some source box has
non-positive width; source heights are not checked by the assertion. -/
theorem C5_get_deltas_width_contract (w : B2BWeights)
    (src_boxes target_boxes : List BoxR) :
    (get_deltas w src_boxes target_boxes).isOk = true
      ↔ ∀ b ∈ src_boxes, 0 < b.x1 - b.x0 := by
  unfold get_deltas
  by_cases h : ∀ b ∈ src_boxes, 0 < b.x1 - b.x0
  · rw [if_pos h]
    exact ⟨fun _ => h, fun _ => rfl⟩
  · rw [if_neg h]
    refine ⟨fun hc => absurd hc ?_, fun hp => absurd hp h⟩
    simp [Except.isOk, Except.toBool]

/-- C5 counterexample: a source box of positive width but zero height is
accepted by get_deltas, although the claim requires a failure for any
non-positive source dimension. -/
theorem C5_counterexample :
    ((⟨0, 0, 1, 0⟩ : BoxR).y1 - (⟨0, 0, 1, 0⟩ : BoxR).y0 ≤ 0)
    ∧ (get_deltas ⟨1, 1, 1, 1⟩ [(⟨0, 0, 1, 0⟩ : BoxR)]
        [(⟨0, 0, 1, 1⟩ : BoxR)]).isOk = true := by
  constructor
  · norm_num
  · unfold get_deltas
    rw [if_pos]
    · rfl
    · intro b hb
      rw [List.mem_singleton] at hb
      subst hb
      norm_num

theorem applyDeltaOne_getDeltasPair (w : B2BWeights) (sc : ℝ) (src tgt : BoxR)
    (hsw : 0 < src.x1 - src.x0) (hsh : 0 < src.y1 - src.y0)
    (htw : 0 < tgt.x1 - tgt.x0) (hth : 0 < tgt.y1 - tgt.y0)
    (hwx : w.wx ≠ 0) (hwy : w.wy ≠ 0) (hww : 0 < w.ww) (hwh : 0 < w.wh)
    (hclw : Real.log ((tgt.x1 - tgt.x0) / (src.x1 - src.x0)) ≤ sc)
    (hclh : Real.log ((tgt.y1 - tgt.y0) / (src.y1 - src.y0)) ≤ sc) :
    applyDeltaOne w sc (getDeltasPair w src tgt) src = tgt := by
  have hsw' : src.x1 - src.x0 ≠ 0 := ne_of_gt hsw
  have hsh' : src.y1 - src.y0 ≠ 0 := ne_of_gt hsh
  have hexpw : Real.exp
      (min (w.ww * Real.log ((tgt.x1 - tgt.x0) / (src.x1 - src.x0)) / w.ww) sc)
      = (tgt.x1 - tgt.x0) / (src.x1 - src.x0) := by
    rw [mul_div_cancel_left₀ _ (ne_of_gt hww), min_eq_left hclw]
    exact Real.exp_log (div_pos htw hsw)
  have hexph : Real.exp
      (min (w.wh * Real.log ((tgt.y1 - tgt.y0) / (src.y1 - src.y0)) / w.wh) sc)
      = (tgt.y1 - tgt.y0) / (src.y1 - src.y0) := by
    rw [mul_div_cancel_left₀ _ (ne_of_gt hwh), min_eq_left hclh]
    exact Real.exp_log (div_pos hth hsh)
  unfold applyDeltaOne getDeltasPair
  refine BoxR.ext ?_ ?_ ?_ ?_
  all_goals dsimp only
  all_goals simp only [hexpw, hexph]
  all_goals field_simp
  all_goals ring

/-- C1: for positive-dimension source and target boxes, positive weights
and deltas below the scale clamp, apply_deltas inverts get_deltas exactly. -/
theorem C1_roundtrip (w : B2BWeights) (sc : ℝ) (src tgt : BoxR)
    (hsw : 0 < src.x1 - src.x0) (hsh : 0 < src.y1 - src.y0)
    (htw : 0 < tgt.x1 - tgt.x0) (hth : 0 < tgt.y1 - tgt.y0)
    (hwx : w.wx ≠ 0) (hwy : w.wy ≠ 0) (hww : 0 < w.ww) (hwh : 0 < w.wh)
    (hclw : Real.log ((tgt.x1 - tgt.x0) / (src.x1 - src.x0)) ≤ sc)
    (hclh : Real.log ((tgt.y1 - tgt.y0) / (src.y1 - src.y0)) ≤ sc) :
    get_deltas w [src] [tgt] = Except.ok [getDeltasPair w src tgt]
    ∧ apply_deltas w sc [[getDeltasPair w src tgt]] [src] = [[tgt]] := by
  constructor
  · unfold get_deltas
    rw [if_pos]
    · rfl
    · intro b hb
      rw [List.mem_singleton] at hb
      subst hb
      exact hsw
  · unfold apply_deltas
    simp [applyDeltaOne_getDeltasPair w sc src tgt hsw hsh htw hth hwx hwy hww hwh
      hclw hclh]

/-- C1 witness: the round trip at the concrete pair (0,0,2,2), (1,1,3,5)
with unit weights and the default scale clamp. -/
theorem C1_witness :
    get_deltas ⟨1, 1, 1, 1⟩ [(⟨0, 0, 2, 2⟩ : BoxR)] [(⟨1, 1, 3, 5⟩ : BoxR)]
        = Except.ok [getDeltasPair ⟨1, 1, 1, 1⟩ ⟨0, 0, 2, 2⟩ ⟨1, 1, 3, 5⟩]
    ∧ apply_deltas ⟨1, 1, 1, 1⟩ (Real.log (1000 / 16))
        [[getDeltasPair ⟨1, 1, 1, 1⟩ ⟨0, 0, 2, 2⟩ ⟨1, 1, 3, 5⟩]]
        [(⟨0, 0, 2, 2⟩ : BoxR)]
        = [[(⟨1, 1, 3, 5⟩ : BoxR)]] :=
  C1_roundtrip ⟨1, 1, 1, 1⟩ (Real.log (1000 / 16)) ⟨0, 0, 2, 2⟩ ⟨1, 1, 3, 5⟩
    (by norm_num) (by norm_num) (by norm_num) (by norm_num)
    (by norm_num) (by norm_num) (by norm_num) (by norm_num)
    (by show Real.log (((3 : ℝ) - 1) / (2 - 0)) ≤ Real.log (1000 / 16)
        have h : ((3 : ℝ) - 1) / (2 - 0) = 1 := by norm_num
        rw [h, Real.log_one]
        exact Real.log_nonneg (by norm_num))
    (by show Real.log (((5 : ℝ) - 1) / (2 - 0)) ≤ Real.log (1000 / 16)
        have h : ((5 : ℝ) - 1) / (2 - 0) = 2 := by norm_num
        rw [h]
        exact Real.log_le_log (by norm_num) (by norm_num))

theorem applyDeltaOne_valid (w : B2BWeights) (sc : ℝ) (d : DeltaR) (b : BoxR)
    (hw : 0 < b.x1 - b.x0) (hh : 0 < b.y1 - b.y0) :
    (applyDeltaOne w sc d b).x0 ≤ (applyDeltaOne w sc d b).x1
    ∧ (applyDeltaOne w sc d b).y0 ≤ (applyDeltaOne w sc d b).y1 := by
  unfold applyDeltaOne
  constructor
  · dsimp only
    have h1 : 0 < Real.exp (min (d.dw / w.ww) sc) * (b.x1 - b.x0) :=
      mul_pos (Real.exp_pos _) hw
    linarith
  · dsimp only
    have h1 : 0 < Real.exp (min (d.dh / w.wh) sc) * (b.y1 - b.y0) :=
      mul_pos (Real.exp_pos _) hh
    linarith

/-- C10: every box produced by apply_deltas from source boxes of strictly
positive width and height is valid (x1 at least x0 and y1 at least y0),
because the predicted width and height are positive after exponentiation. -/
theorem C10_apply_deltas_valid (w : B2BWeights) (sc : ℝ)
    (deltas : List (List DeltaR)) (boxes : List BoxR)
    (hpos : ∀ b ∈ boxes, 0 < b.x1 - b.x0 ∧ 0 < b.y1 - b.y0) :
    ∀ row ∈ apply_deltas w sc deltas boxes, ∀ p ∈ row,
      p.x0 ≤ p.x1 ∧ p.y0 ≤ p.y1 := by
  intro row hrow p hp
  unfold apply_deltas at hrow
  obtain ⟨ds, b, _, hb, hrow2⟩ := zipWith_mem _ deltas boxes row hrow
  rw [hrow2] at hp
  rw [List.mem_map] at hp
  obtain ⟨d, _, hd2⟩ := hp
  rw [← hd2]
  exact applyDeltaOne_valid w sc d b (hpos b hb).1 (hpos b hb).2

/-- C10 witness: a concrete extreme delta applied to the unit box yields a
valid box. -/
theorem C10_witness :
    (applyDeltaOne ⟨1, 1, 1, 1⟩ 1 ⟨10, -5, 3, -7⟩ ⟨0, 0, 1, 1⟩).x0
        ≤ (applyDeltaOne ⟨1, 1, 1, 1⟩ 1 ⟨10, -5, 3, -7⟩ ⟨0, 0, 1, 1⟩).x1
    ∧ (applyDeltaOne ⟨1, 1, 1, 1⟩ 1 ⟨10, -5, 3, -7⟩ ⟨0, 0, 1, 1⟩).y0
        ≤ (applyDeltaOne ⟨1, 1, 1, 1⟩ 1 ⟨10, -5, 3, -7⟩ ⟨0, 0, 1, 1⟩).y1 :=
  C10_apply_deltas_valid ⟨1, 1, 1, 1⟩ 1 [[⟨10, -5, 3, -7⟩]] [⟨0, 0, 1, 1⟩]
    (by
      intro b hb
      rw [List.mem_singleton] at hb
      subst hb
      constructor <;> norm_num)
    [applyDeltaOne ⟨1, 1, 1, 1⟩ 1 ⟨10, -5, 3, -7⟩ ⟨0, 0, 1, 1⟩]
    (by simp [apply_deltas])
    (applyDeltaOne ⟨1, 1, 1, 1⟩ 1 ⟨10, -5, 3, -7⟩ ⟨0, 0, 1, 1⟩)
    (by simp)

/-- C2: the localization component returned by rpn_losses is the unapplied
loss function: it does not depend on any of the arguments, while the
localization loss the claim specifies does change with the predicted
deltas, so no run of rpn_losses can return it. -/
theorem C2_rpn_localization_never_computed :
    (∀ (g1 : List ℤ) (d1 : List (List ℝ)) (p1 : List ℝ) (pd1 : List (List ℝ))
       (b1 : ℝ) (g2 : List ℤ) (d2 : List (List ℝ)) (p2 : List ℝ)
       (pd2 : List (List ℝ)) (b2 : ℝ),
      (rpn_losses g1 d1 p1 pd1 b1).2 = (rpn_losses g2 d2 p2 pd2 b2).2)
    ∧ spec_rpn_loc_loss [1] [[0, 0, 0, 0]] [[4, 0, 0, 0]] 1 1 1
      ≠ spec_rpn_loc_loss [1] [[0, 0, 0, 0]] [[0, 0, 0, 0]] 1 1 1 := by
  constructor
  · intro g1 d1 p1 pd1 b1 g2 d2 p2 pd2 b2
    rfl
  · have h4 : smoothL1 1 ((4 : ℝ) - 0) = 7 / 2 := by
      unfold smoothL1
      rw [if_neg]
      · rw [show |(4 : ℝ) - 0| = 4 by rw [sub_zero]; exact abs_of_nonneg (by norm_num)]
        norm_num
      · rw [show |(4 : ℝ) - 0| = 4 by rw [sub_zero]; exact abs_of_nonneg (by norm_num)]
        norm_num
    have h0 : smoothL1 1 ((0 : ℝ) - 0) = 0 := by
      unfold smoothL1
      rw [if_pos]
      · norm_num
      · norm_num
    unfold spec_rpn_loc_loss smoothL1SumRow
    simp only [List.zip_cons_cons, List.zip_nil_left, List.zipWith_cons_cons,
      List.zipWith_nil_left, List.zipWith_nil_right, List.sum_cons, List.sum_nil]
    simp only [if_true]
    simp only [List.zipWith_cons_cons, List.zipWith_nil_left, List.sum_cons,
      List.sum_nil, h4, h0]
    norm_num

theorem flatMap_const_length {a b : Type} (l : List a) (f : a → List b) (c : Nat)
    (h : ∀ x ∈ l, (f x).length = c) : (l.flatMap f).length = l.length * c := by
  induction l with
  | nil => simp
  | cons x xs ih =>
    rw [List.flatMap_cons, List.length_append, h x (List.mem_cons_self x xs),
      ih (fun y hy => h y (List.mem_cons_of_mem x hy)), List.length_cons,
      Nat.succ_mul]
    omega

/-- The cell anchor count is the number of (size, ratio) combinations. -/
theorem generate_cell_anchors_length (sizes aspect_ratios : List ℝ) :
    (generate_cell_anchors sizes aspect_ratios).length
      = sizes.length * aspect_ratios.length := by
  unfold generate_cell_anchors
  exact flatMap_const_length sizes _ _ (fun x _ => by rw [List.length_map])

/-- With a sub-unit offset and positive stride, the arange of one grid axis
has exactly one entry per grid cell. -/
theorem arange_grid (n : Nat) (stride offset : ℝ) (hs : 0 < stride)
    (h0 : 0 ≤ offset) (h1 : offset < 1) :
    arange (offset * stride) (n * stride) stride
      = (List.range n).map (fun i : Nat => offset * stride + (i : ℝ) * stride) := by
  unfold arange
  have hq : ((n : ℝ) * stride - offset * stride) / stride = (n : ℝ) - offset := by
    field_simp
    ring
  rw [hq]
  have hceil : ⌈(n : ℝ) - offset⌉ = (n : ℤ) := by
    rw [Int.ceil_eq_iff]
    constructor
    · push_cast
      linarith
    · push_cast
      linarith
  rw [hceil, Int.toNat_natCast]

/-- C8: on an H x W grid with a sub-unit offset and positive stride, the
level produces exactly H times W times A anchor boxes, the anchor list
being every zero-centered cell anchor (half-width
sqrt(size squared / ratio) / 2, half-height ratio times the width)
translated by every grid shift ((offset + j) * stride, (offset + i) * stride). -/
theorem C8_grid_anchors (gridH gridW : Nat) (stride offset : ℝ)
    (sizes aspect_ratios : List ℝ) (hs : 0 < stride) (h0 : 0 ≤ offset)
    (h1 : offset < 1) :
    (grid_anchors gridH gridW stride offset
        (generate_cell_anchors sizes aspect_ratios)).length
      = gridH * gridW * (sizes.length * aspect_ratios.length)
    ∧ grid_anchors gridH gridW stride offset
        (generate_cell_anchors sizes aspect_ratios)
      = (List.range gridH).flatMap (fun i =>
          (List.range gridW).flatMap (fun j =>
            (generate_cell_anchors sizes aspect_ratios).map (fun a =>
              (⟨a.x0 + (offset * stride + (j : ℝ) * stride),
                a.y0 + (offset * stride + (i : ℝ) * stride),
                a.x1 + (offset * stride + (j : ℝ) * stride),
                a.y1 + (offset * stride + (i : ℝ) * stride)⟩ : BoxR)))) := by
  have hW := arange_grid gridW stride offset hs h0 h1
  have hH := arange_grid gridH stride offset hs h0 h1
  have hshape : grid_anchors gridH gridW stride offset
        (generate_cell_anchors sizes aspect_ratios)
      = (List.range gridH).flatMap (fun i =>
          (List.range gridW).flatMap (fun j =>
            (generate_cell_anchors sizes aspect_ratios).map (fun a =>
              (⟨a.x0 + (offset * stride + (j : ℝ) * stride),
                a.y0 + (offset * stride + (i : ℝ) * stride),
                a.x1 + (offset * stride + (j : ℝ) * stride),
                a.y1 + (offset * stride + (i : ℝ) * stride)⟩ : BoxR)))) := by
    unfold grid_anchors create_grid_offsets
    rw [hH, hW]
    simp only [List.flatMap_map, List.flatMap_assoc, List.map_map, Function.comp]
  refine ⟨?_, hshape⟩
  rw [hshape]
  have hinner : ∀ i ∈ List.range gridH,
      ((List.range gridW).flatMap (fun j =>
        (generate_cell_anchors sizes aspect_ratios).map (fun a =>
          (⟨a.x0 + (offset * stride + (j : ℝ) * stride),
            a.y0 + (offset * stride + (i : ℝ) * stride),
            a.x1 + (offset * stride + (j : ℝ) * stride),
            a.y1 + (offset * stride + (i : ℝ) * stride)⟩ : BoxR)))).length
        = gridW * (sizes.length * aspect_ratios.length) := by
    intro i _
    rw [flatMap_const_length _ _ (sizes.length * aspect_ratios.length)
      (fun j _ => by rw [List.length_map, generate_cell_anchors_length])]
    rw [List.length_range]
  rw [flatMap_const_length _ _ _ hinner, List.length_range]
  ring

/-- C8 witness: a 2 x 2 grid at stride 16 with offset one half and a
3 sizes by 3 ratios cell anchor set yields exactly 36 anchors. -/
theorem C8_witness :
    (grid_anchors 2 2 16 (1 / 2)
        (generate_cell_anchors [32, 64, 128] [1 / 2, 1, 2])).length
      = 2 * 2 * ([32, 64, 128].length * [(1 : ℝ) / 2, 1, 2].length) :=
  (C8_grid_anchors 2 2 16 (1 / 2) [32, 64, 128] [1 / 2, 1, 2]
    (by norm_num) (by norm_num) (by norm_num)).1

end FrcnnR
